import Mathlib

/-!
# Verification of the `rubot` game-bot library

Shallow embedding of `src/lib.rs` and `src/brute.rs`:

* The Rust trait `Game` becomes a structure of functions over the four
  associated types `(S, A, P, F)` (state, action, player, fitness).
  `fn execute(&mut self, ...) -> Fitness` mutates the receiver in place,
  so it is embedded in state-passing style `S → A → P → F × S`;
  `fn actions(&self, ...)` is pure.
* The brute-force bot of `src/brute.rs` only stores the observing player,
  so `Bot::select` and `Bot::minimax` become functions taking that player
  as an explicit argument.
* The run-condition policies of `src/lib.rs` are embedded with their
  mutable state passed explicitly; wall-clock time (`Instant::now()`)
  is modelled as an explicit natural-number parameter supplied at each poll.
* `u32` counters that the code increments are reduced modulo `2 ^ 32`.
-/

namespace Rubot

variable {S A P F : Type}

/-- The `Game` trait of `src/lib.rs`, lines 102-153.  `actions` returns
whether `player` is the acting party together with the collection of legal
actions (a list, one-shot-iterated by the bots).  `execute` returns the new
fitness for `player` together with the mutated state. -/
structure Game (S A P F : Type) where
  actions : S → P → Bool × List A
  execute : S → A → P → F × S

/-- Default implementation of `Game::look_ahead` (`src/lib.rs`, lines 150-152):
`self.clone().execute(action, player)` — execute on a value copy of the
receiver and return the resulting fitness. -/
def Game.look_ahead (g : Game S A P F) (s : S) (a : A) (p : P) : F :=
  (g.execute s a p).1

/-- `Bot::minimax` from `src/brute.rs`, lines 38-57.  At depth 0 the value of
`a` at `s` is the non-mutating lookahead estimate.  At depth `e + 1` the code
clones `s`, executes `a` on the clone (yielding `fitness` and the child
state), asks the child for `(active, actions)`, recursively evaluates every
child action at depth `e`, and folds with `Iterator::max`/`Iterator::min`
according to `active`, falling back to the pre-recursion `fitness` via
`unwrap_or` when the child has no actions. -/
def minimax [LinearOrder F] (g : Game S A P F) (p : P) (d : Nat) (a : A) (s : S) : F :=
  match d with
  | 0 => g.look_ahead s a p
  | e + 1 =>
    let fs := g.execute s a p
    let aa := g.actions fs.2 p
    let vals := aa.2.map fun a2 => minimax g p e a2 fs.2
    (if aa.1 then vals.max? else vals.min?).getD fs.1

/-- The body of `Bot::select` from `src/brute.rs`, lines 16-36, kept as the
running pair `best : (Action, Fitness)`: `None` when the root player is not
acting or the action iterator is empty; otherwise the first action seeds
`best` and each later action replaces it exactly when its minimax value is
strictly greater. -/
def selectBest [LinearOrder F] (g : Game S A P F) (p : P) (s : S) (d : Nat) :
    Option (A × F) :=
  let aa := g.actions s p
  if !aa.1 then none else
  match aa.2 with
  | [] => none
  | a0 :: rest =>
    some (rest.foldl
      (fun best a =>
        let new := minimax g p d a s
        if new > best.2 then (a, new) else best)
      (a0, minimax g p d a0 s))

/-- `Bot::select` from `src/brute.rs`, lines 16-36: the source returns
`Some(best.0)`, i.e. the action component of `selectBest`. -/
def select [LinearOrder F] (g : Game S A P F) (p : P) (s : S) (d : Nat) : Option A :=
  (selectBest g p s d).map Prod.fst

/-- `pub struct Steps(pub u32)` from `src/lib.rs`, line 206. -/
structure Steps where
  val : Nat

/-- `pub struct InnerSteps(u32, u32)` from `src/lib.rs`, line 213:
a poll counter and the configured step count.  The `u32` counter is kept
reduced modulo `2 ^ 32`. -/
structure InnerSteps where
  count : Nat
  limit : Nat

/-- `Steps::into_run_condition` (`src/lib.rs`, lines 215-221):
`InnerSteps(0, self.0)`. -/
def Steps.into_run_condition (st : Steps) : InnerSteps :=
  ⟨0, st.val⟩

/-- `RunCondition::step` for `InnerSteps` (`src/lib.rs`, lines 223-228):
`self.0 += 1; self.0 < self.1`, the `u32` increment wrapping modulo `2 ^ 32`.
Returns the updated condition state together with the polled answer. -/
def InnerSteps.step (c : InnerSteps) : InnerSteps × Bool :=
  let c2 := (c.count + 1) % 2 ^ 32
  (⟨c2, c.limit⟩, decide (c2 < c.limit))

/-- `RunCondition::depth` for `InnerSteps` (`src/lib.rs`, lines 230-233):
always `true`, no state change. -/
def InnerSteps.depth (c : InnerSteps) (_d : Nat) : InnerSteps × Bool :=
  (c, true)

/-- The list of answers of the first `n` consecutive `step()` polls on an
`InnerSteps` condition. -/
def InnerSteps.polls (c : InnerSteps) : Nat → List Bool
  | 0 => []
  | n + 1 =>
    let r := c.step
    r.2 :: r.1.polls n

/-- `pub struct Depth(pub u32)` from `src/lib.rs`, line 300. -/
structure Depth where
  val : Nat

/-- `RunCondition::step` for `Depth` (`src/lib.rs`, lines 303-306):
always `true`. -/
def Depth.step (_c : Depth) : Bool :=
  true

/-- `RunCondition::depth` for `Depth` (`src/lib.rs`, lines 308-311):
`self.0 > depth`. -/
def Depth.depth (c : Depth) (d : Nat) : Bool :=
  decide (c.val > d)

/-- `IntoRunCondition for Duration` (`src/lib.rs`, lines 239-245):
`Instant::now() + self`.  Time is modelled as a natural number; the current
instant `now` is an explicit parameter. -/
def Duration.into_run_condition (now dur : Nat) : Nat :=
  now + dur

/-- `RunCondition::step` for `Instant` (`src/lib.rs`, lines 266-268):
`Instant::now() < *self`, with the poll-time instant `now` passed
explicitly. -/
def Instant.step (now deadline : Nat) : Bool :=
  decide (now < deadline)

/-- `RunCondition::depth` for `Instant` (`src/lib.rs`, lines 271-273):
`Instant::now() < *self`, ignoring the depth argument. -/
def Instant.depth (now deadline : Nat) (_d : Nat) : Bool :=
  decide (now < deadline)

/-- The `21 flags` game from the documentation example in `src/lib.rs`,
lines 39-98, used as a concrete test instance.  State: remaining flags and
the active player; a move removes `1..=min(flags, 3)` flags and toggles the
active player; the fitness for `p` is whether the game just ended with `p`
as the winner. -/
def flags : Game (Nat × Bool) Nat Bool Bool where
  actions s p := (p == s.2, List.range' 1 (min s.1 3))
  execute s a p :=
    let s2 := (s.1 - a, !s.2)
    (decide (s2.1 = 0) && (p == !s2.2), s2)

/-- State-threaded form of the default `look_ahead` (`src/lib.rs`, lines
150-152): the second component models the value behind the shared `&self`
reference after the call.  The code clones the receiver and executes the
clone, so the receiver passes through untouched. -/
def Game.look_aheadST (g : Game S A P F) (s : S) (a : A) (p : P) : F × S :=
  let dup := s
  ((g.execute dup a p).1, s)

/- ### Order-theoretic helper lemmas about left folds with `max`/`min` -/

theorem foldl_max_mem [LinearOrder F] (l : List F) (a : F) :
    l.foldl max a ∈ a :: l := by
  induction l generalizing a with
  | nil => simp
  | cons x xs ih =>
    rw [List.foldl_cons]
    rcases List.mem_cons.mp (ih (max a x)) with h | h
    · rcases max_choice a x with he | he
      · rw [h, he]; exact List.mem_cons_self _ _
      · rw [h, he]; exact List.mem_cons.mpr (Or.inr (List.mem_cons_self _ _))
    · exact List.mem_cons.mpr (Or.inr (List.mem_cons.mpr (Or.inr h)))

theorem le_foldl_max [LinearOrder F] (l : List F) (a : F) :
    ∀ x ∈ a :: l, x ≤ l.foldl max a := by
  induction l generalizing a with
  | nil =>
    intro x hx
    rw [List.mem_singleton] at hx
    simp [hx]
  | cons y ys ih =>
    intro x hx
    rw [List.foldl_cons]
    rcases List.mem_cons.mp hx with rfl | hx
    · exact le_trans (le_max_left x y) (ih (max x y) _ (List.mem_cons_self _ _))
    · rcases List.mem_cons.mp hx with rfl | hx
      · exact le_trans (le_max_right a x) (ih (max a x) _ (List.mem_cons_self _ _))
      · exact ih (max a y) x (List.mem_cons.mpr (Or.inr hx))

theorem foldl_min_mem [LinearOrder F] (l : List F) (a : F) :
    l.foldl min a ∈ a :: l := by
  induction l generalizing a with
  | nil => simp
  | cons x xs ih =>
    rw [List.foldl_cons]
    rcases List.mem_cons.mp (ih (min a x)) with h | h
    · rcases min_choice a x with he | he
      · rw [h, he]; exact List.mem_cons_self _ _
      · rw [h, he]; exact List.mem_cons.mpr (Or.inr (List.mem_cons_self _ _))
    · exact List.mem_cons.mpr (Or.inr (List.mem_cons.mpr (Or.inr h)))

theorem foldl_min_le [LinearOrder F] (l : List F) (a : F) :
    ∀ x ∈ a :: l, l.foldl min a ≤ x := by
  induction l generalizing a with
  | nil =>
    intro x hx
    rw [List.mem_singleton] at hx
    simp [hx]
  | cons y ys ih =>
    intro x hx
    rw [List.foldl_cons]
    rcases List.mem_cons.mp hx with rfl | hx
    · exact le_trans (ih (min x y) _ (List.mem_cons_self _ _)) (min_le_left x y)
    · rcases List.mem_cons.mp hx with rfl | hx
      · exact le_trans (ih (min a x) _ (List.mem_cons_self _ _)) (min_le_right a x)
      · exact ih (min a y) x (List.mem_cons.mpr (Or.inr hx))

/- ### Claim theorems (simple claims) -/

/-- C3: `select` returns `None` exactly when the root query reports the
player as not acting or reports zero legal actions; in every other case it
returns `Some` action (`src/brute.rs`, lines 16-36: the early
`if !active { return None }` and the `actions.next()?`). -/
theorem select_none_iff [LinearOrder F] (g : Game S A P F) (p : P) (s : S) (d : Nat) :
    select g p s d = none ↔
      ((g.actions s p).1 = false ∨ (g.actions s p).2 = []) := by
  unfold select selectBest
  cases h1 : (g.actions s p).1 <;> cases h2 : (g.actions s p).2 <;> simp [h1, h2]

theorem minimax_nil_aux [LinearOrder F] (g : Game S A P F) (p : P)
    (a : A) (s : S) (e : Nat)
    (h : (g.actions (g.execute s a p).2 p).2 = []) :
    minimax g p (e + 1) a s = (g.execute s a p).1 := by
  simp only [minimax, h, List.map_nil]
  cases (g.actions (g.execute s a p).2 p).1 <;> simp

/-- C5: at positive remaining depth, a node whose action collection is empty
terminates at the pre-recursion fitness: the value produced by `execute` on
the clone (`src/brute.rs`, lines 42-56, the `unwrap_or(fitness)`). -/
theorem minimax_empty_terminal [LinearOrder F] (g : Game S A P F) (p : P)
    (a : A) (s : S) (e : Nat)
    (h : (g.actions (g.execute s a p).2 p).2 = []) :
    minimax g p (e + 1) a s = (g.execute s a p).1 :=
  minimax_nil_aux g p a s e h

/-- Witness for `minimax_empty_terminal`: in the flags game, removing the
single remaining flag leads to a child with no legal actions, and the
search returns the fitness of that final move. -/
theorem minimax_empty_terminal_witness :
    (flags.actions (flags.execute (1, true) 1 true).2 true).2 = []
  ∧ minimax flags true 1 1 (1, true) = (flags.execute (1, true) 1 true).1 :=
  ⟨by decide, minimax_empty_terminal flags true 1 (1, true) 0 (by decide)⟩

/-- C6 (code bug): `InnerSteps::step` increments first and then compares
with `<` (`src/brute.rs` caller aside, `src/lib.rs` lines 223-228), so a
fixed step count of `N` yields `true` for only the first `N - 1` polls:
with `Steps(1)` the very first poll is already `false`, and with `Steps(3)`
the third poll is `false`, although the claim (and the doc comment on
`Steps`) require `true` for the first `N` polls. -/
theorem innerSteps_off_by_one :
    InnerSteps.polls (Steps.into_run_condition ⟨1⟩) 1 = [false]
  ∧ InnerSteps.polls (Steps.into_run_condition ⟨3⟩) 3 = [true, true, false] :=
  ⟨rfl, rfl⟩

/-- C7: the `Depth` policy's `step` is constantly `true` and `depth d` is
`true` exactly when `d` is strictly below the configured ceiling
(`src/lib.rs`, lines 300-312). -/
theorem depth_policy_spec (c : Depth) (d : Nat) :
    Depth.step c = true ∧ (Depth.depth c d = true ↔ d < c.val) := by
  refine ⟨rfl, ?_⟩
  simp [Depth.depth]

/-- C8: converting a `Duration` yields the deadline `now + duration`
(`src/lib.rs`, lines 239-245), and for any deadline the `step` and `depth`
hooks of an `Instant` behave identically, returning `true` exactly when the
poll-time instant strictly precedes the deadline (`src/lib.rs`,
lines 263-274). -/
theorem duration_deadline_spec (now dur t dl d : Nat) :
    Duration.into_run_condition now dur = now + dur
  ∧ (Instant.step t dl = true ↔ t < dl)
  ∧ Instant.depth t dl d = Instant.step t dl := by
  refine ⟨rfl, ?_, rfl⟩
  simp [Instant.step]

/-- C1: characterization of `Bot::minimax` (`src/brute.rs`, lines 38-57).
At depth 0 the value of action `a` is the non-mutating lookahead estimate.
At depth `e + 1` the code executes `a` on a private clone (pre-recursion
fitness `(g.execute s a p).1`, child state `(g.execute s a p).2`) and folds
the depth-`e` values of the child's actions: the result is the pre-recursion
fitness when the child has no actions, and otherwise is one of the child
values, an upper bound of them when the child reports `p` as acting and a
lower bound of them when it does not — i.e. their `max` resp. `min`. -/
theorem minimax_spec [LinearOrder F] (g : Game S A P F) (p : P) (e : Nat)
    (a : A) (s : S) :
    minimax g p 0 a s = g.look_ahead s a p
  ∧ ((g.actions (g.execute s a p).2 p).2 = [] →
      minimax g p (e + 1) a s = (g.execute s a p).1)
  ∧ ((g.actions (g.execute s a p).2 p).2 ≠ [] →
      minimax g p (e + 1) a s ∈
        (g.actions (g.execute s a p).2 p).2.map
          (fun a2 => minimax g p e a2 (g.execute s a p).2))
  ∧ ((g.actions (g.execute s a p).2 p).1 = true →
      ∀ a2 ∈ (g.actions (g.execute s a p).2 p).2,
        minimax g p e a2 (g.execute s a p).2 ≤ minimax g p (e + 1) a s)
  ∧ ((g.actions (g.execute s a p).2 p).1 = false →
      ∀ a2 ∈ (g.actions (g.execute s a p).2 p).2,
        minimax g p (e + 1) a s ≤ minimax g p e a2 (g.execute s a p).2) := by
  refine ⟨rfl, ?_, ?_, ?_, ?_⟩
  · intro h
    exact minimax_nil_aux g p a s e h
  · intro h
    simp only [minimax]
    cases h2 : (g.actions (g.execute s a p).2 p).2 with
    | nil => exact absurd h2 h
    | cons x xs =>
      cases h1 : (g.actions (g.execute s a p).2 p).1
      · simp only [h1, Bool.false_eq_true, if_false, List.map_cons,
          List.min?_cons', Option.getD_some]
        exact foldl_min_mem _ _
      · simp only [h1, if_true, List.map_cons, List.max?_cons', Option.getD_some]
        exact foldl_max_mem _ _
  · intro h1 a2 ha2
    simp only [minimax, h1, if_true]
    cases h2 : (g.actions (g.execute s a p).2 p).2 with
    | nil => exact absurd (h2 ▸ ha2) (List.not_mem_nil a2)
    | cons x xs =>
      simp only [List.map_cons, List.max?_cons', Option.getD_some]
      refine le_foldl_max _ _ _ ?_
      exact List.mem_map_of_mem
        (fun a2 => minimax g p e a2 (g.execute s a p).2) (h2 ▸ ha2)
  · intro h1 a2 ha2
    simp only [minimax, h1, Bool.false_eq_true, if_false]
    cases h2 : (g.actions (g.execute s a p).2 p).2 with
    | nil => exact absurd (h2 ▸ ha2) (List.not_mem_nil a2)
    | cons x xs =>
      simp only [List.map_cons, List.min?_cons', Option.getD_some]
      refine foldl_min_le _ _ _ ?_
      exact List.mem_map_of_mem
        (fun a2 => minimax g p e a2 (g.execute s a p).2) (h2 ▸ ha2)

/-- Witness for `minimax_spec`: in the flags game, taking one of three flags
hands the turn to the opponent, so the child folds with `min`: the depth-1
value of that move is a lower bound of the depth-0 values of both replies. -/
theorem minimax_spec_witness :
    (flags.actions (flags.execute (3, true) 1 true).2 true).1 = false
  ∧ (∀ a2 ∈ (flags.actions (flags.execute (3, true) 1 true).2 true).2,
      minimax flags true 1 1 (3, true) ≤
        minimax flags true 0 a2 (flags.execute (3, true) 1 true).2) :=
  ⟨by decide, (minimax_spec flags true 0 1 (3, true)).2.2.2.2 (by decide)⟩

/-- The running-best fold of `Bot::select` (`src/brute.rs`, lines 28-33)
computes a pair whose fitness component is the value of its action
component, whose action is the first list entry strictly better than
everything before it, and whose value bounds every candidate. -/
theorem selectFold_first_argmax [LinearOrder F] (mm : A → F) :
    ∀ (rest : List A) (c : A) (b : F) (r : A × F),
      b = mm c →
      rest.foldl (fun best x => if mm x > best.2 then (x, mm x) else best) (c, b) = r →
      r.2 = mm r.1
      ∧ (∃ l1 l2, c :: rest = l1 ++ r.1 :: l2 ∧ ∀ x ∈ l1, mm x < r.2)
      ∧ (∀ x ∈ c :: rest, mm x ≤ r.2) := by
  intro rest
  induction rest with
  | nil =>
    intro c b r hb hr
    simp only [List.foldl_nil] at hr
    subst hr
    refine ⟨hb, ⟨[], [], rfl, by simp⟩, ?_⟩
    intro x hx
    rw [List.mem_singleton] at hx
    subst hx
    exact le_of_eq hb.symm
  | cons a rest ih =>
    intro c b r hb hr
    rw [List.foldl_cons] at hr
    by_cases h : mm a > b
    · rw [if_pos h] at hr
      obtain ⟨h1, ⟨l1, l2, hsplit, hlt⟩, hle⟩ := ih a (mm a) r rfl hr
      refine ⟨h1, ⟨c :: l1, l2, ?_, ?_⟩, ?_⟩
      · rw [List.cons_append, ← hsplit]
      · intro x hx
        rcases List.mem_cons.mp hx with rfl | hx
        · calc mm x = b := hb.symm
            _ < mm a := h
            _ ≤ r.2 := hle a (List.mem_cons_self _ _)
        · exact hlt x hx
      · intro x hx
        rcases List.mem_cons.mp hx with rfl | hx
        · calc mm x = b := hb.symm
            _ ≤ mm a := le_of_lt h
            _ ≤ r.2 := hle a (List.mem_cons_self _ _)
        · exact hle x hx
    · rw [if_neg h] at hr
      push_neg at h
      obtain ⟨h1, ⟨l1, l2, hsplit, hlt⟩, hle⟩ := ih c b r hb hr
      have hcle : b ≤ r.2 := hb ▸ hle c (List.mem_cons_self _ _)
      refine ⟨h1, ?_, ?_⟩
      · cases l1 with
        | nil =>
          simp only [List.nil_append] at hsplit
          refine ⟨[], a :: l2, ?_, by simp⟩
          rw [List.nil_append]
          rw [List.cons.injEq] at hsplit
          rw [hsplit.1, hsplit.2]
        | cons z t =>
          rw [List.cons_append, List.cons.injEq] at hsplit
          obtain ⟨rfl, hrest⟩ := hsplit
          refine ⟨c :: a :: t, l2, ?_, ?_⟩
          · simp [hrest]
          · intro x hx
            rcases List.mem_cons.mp hx with rfl | hx
            · exact hlt x (List.mem_cons_self _ _)
            · rcases List.mem_cons.mp hx with rfl | hx
              · calc mm x ≤ b := h
                  _ = mm c := hb
                  _ < r.2 := hlt c (List.mem_cons_self _ _)
              · exact hlt x (List.mem_cons.mpr (Or.inr hx))
      · intro x hx
        rcases List.mem_cons.mp hx with rfl | hx
        · exact hle x (List.mem_cons_self _ _)
        · rcases List.mem_cons.mp hx with rfl | hx
          · exact le_trans h hcle
          · exact hle x (List.mem_cons.mpr (Or.inr hx))

/-- C4: when the observing player is acting and has at least one legal
action, `select` returns the first action in the enumeration order of
`Game::actions` among those achieving the maximal minimax value
(`src/brute.rs`, lines 20-35: the strict `new > best.1` comparison keeps
the earliest maximal action).  Determinism of two invocations on an
unmodified state is definitional, since the embedding of the pure,
deterministic `Game` contract is a function. -/
theorem select_first_max [LinearOrder F] (g : Game S A P F) (p : P) (s : S)
    (d : Nat) (hact : (g.actions s p).1 = true)
    (hne : (g.actions s p).2 ≠ []) :
    ∃ c l1 l2,
      select g p s d = some c
      ∧ (g.actions s p).2 = l1 ++ c :: l2
      ∧ (∀ x ∈ l1, minimax g p d x s < minimax g p d c s)
      ∧ (∀ x ∈ (g.actions s p).2, minimax g p d x s ≤ minimax g p d c s) := by
  cases h2 : (g.actions s p).2 with
  | nil => exact absurd h2 hne
  | cons a0 rest =>
    obtain ⟨h1, ⟨l1, l2, hsplit, hlt⟩, hle⟩ :=
      selectFold_first_argmax (fun x => minimax g p d x s) rest a0
        (minimax g p d a0 s)
        (rest.foldl
          (fun best x =>
            if minimax g p d x s > best.2 then (x, minimax g p d x s) else best)
          (a0, minimax g p d a0 s))
        rfl rfl
    refine ⟨_, l1, l2, ?_, hsplit, fun x hx => h1 ▸ hlt x hx,
      fun x hx => h1 ▸ hle x (h2 ▸ hx)⟩
    unfold select selectBest
    simp only [hact, h2, Bool.not_true, Bool.false_eq_true, if_false]
    rfl

/-- Witness for `select_first_max`: in the flags game with three flags and
the first player to move, taking all three flags is the unique winning move
and is returned by `select`. -/
theorem select_first_max_witness :
    ∃ c l1 l2,
      select flags true (3, true) 0 = some c
      ∧ (flags.actions (3, true) true).2 = l1 ++ c :: l2
      ∧ (∀ x ∈ l1, minimax flags true 0 x (3, true) < minimax flags true 0 c (3, true))
      ∧ (∀ x ∈ (flags.actions (3, true) true).2,
          minimax flags true 0 x (3, true) ≤ minimax flags true 0 c (3, true)) :=
  select_first_max flags true (3, true) 0 (by decide) (by decide)

/-- C9: the default `look_ahead` returns exactly the fitness obtained by
executing the action on a duplicate of the state, and the receiver itself
passes through unchanged (`src/lib.rs`, lines 150-152). -/
theorem look_ahead_default_spec (g : Game S A P F) (s : S) (a : A) (p : P) :
    g.look_aheadST s a p = ((g.execute s a p).1, s)
  ∧ g.look_ahead s a p = (g.execute s a p).1 :=
  ⟨rfl, rfl⟩

/-- State-threaded form of `Bot::minimax` (`src/brute.rs`, lines 38-57),
mirroring the borrows of the source: the second component models the value
behind the caller's shared reference `state: &T` after the call.  The body
clones that state, executes the action on the clone, and threads the clone
through the child calls exactly as the source passes `&state` to each child
in turn; the caller's state itself is only read. -/
def minimaxST [LinearOrder F] (g : Game S A P F) (p : P) (d : Nat) (a : A)
    (s : S) : F × S :=
  match d with
  | 0 => g.look_aheadST s a p
  | e + 1 =>
    let fs := g.execute s a p
    let r := (g.actions fs.2 p).2.foldl
      (fun (acc : List F × S) a2 =>
        let vr := minimaxST g p e a2 acc.2
        (acc.1 ++ [vr.1], vr.2))
      ([], fs.2)
    ((if (g.actions fs.2 p).1 then r.1.max? else r.1.min?).getD fs.1, s)

/-- State-threaded form of `Bot::select` (`src/brute.rs`, lines 16-36):
the second component models the value behind the caller's `state: &T`
reference after the call, threaded through the root `minimax` calls. -/
def selectST [LinearOrder F] (g : Game S A P F) (p : P) (s : S) (d : Nat) :
    Option A × S :=
  let aa := g.actions s p
  if !aa.1 then (none, s) else
  match aa.2 with
  | [] => (none, s)
  | a0 :: rest =>
    let r0 := minimaxST g p d a0 s
    let r := rest.foldl
      (fun (acc : (A × F) × S) a =>
        let nr := minimaxST g p d a acc.2
        (if nr.1 > acc.1.2 then (a, nr.1) else acc.1, nr.2))
      ((a0, r0.1), r0.2)
    (some r.1.1, r.2)

theorem minimaxST_eq [LinearOrder F] (g : Game S A P F) (p : P) :
    ∀ (d : Nat) (a : A) (s : S), minimaxST g p d a s = (minimax g p d a s, s) := by
  intro d
  induction d with
  | zero => intro a s; rfl
  | succ e ih =>
    intro a s
    have hfold : ∀ (l : List A) (acc : List F) (σ : S),
        l.foldl (fun (acc : List F × S) a2 =>
          let vr := minimaxST g p e a2 acc.2
          (acc.1 ++ [vr.1], vr.2)) (acc, σ)
        = (acc ++ l.map (fun a2 => minimax g p e a2 σ), σ) := by
      intro l
      induction l with
      | nil => intro acc σ; simp
      | cons x xs ihl =>
        intro acc σ
        rw [List.foldl_cons]
        simp only [ih x σ]
        rw [ihl]
        simp
    simp only [minimaxST, minimax]
    rw [hfold]
    simp

theorem selectST_eq [LinearOrder F] (g : Game S A P F) (p : P) (s : S)
    (d : Nat) : selectST g p s d = (select g p s d, s) := by
  have hfold : ∀ (l : List A) (c : A × F),
      l.foldl (fun (acc : (A × F) × S) a =>
        let nr := minimaxST g p d a acc.2
        (if nr.1 > acc.1.2 then (a, nr.1) else acc.1, nr.2)) (c, s)
      = (l.foldl (fun best a =>
          let new := minimax g p d a s
          if new > best.2 then (a, new) else best) c, s) := by
    intro l
    induction l with
    | nil => intro c; rfl
    | cons x xs ihl =>
      intro c
      rw [List.foldl_cons, List.foldl_cons]
      simp only [minimaxST_eq g p d x s]
      exact ihl _
  unfold selectST select selectBest
  cases h1 : (g.actions s p).1
  · simp [h1]
  · cases h2 : (g.actions s p).2 with
    | nil => simp [h1, h2]
    | cons a0 rest =>
      simp only [h1, h2, Bool.not_true, Bool.false_eq_true, if_false,
        minimaxST_eq g p d a0 s]
      rw [hfold]
      simp

/-- Modelled from the spec: helper for the live window of a maximizing node
(§4.1, §9 of the spec) — the low bound raised to the running best; with no
prior bound the running best itself becomes the bound. -/
def raiseLow [LinearOrder F] : Option F → F → Option F
  | none, b => some b
  | some l, b => some (max l b)

/-- Modelled from the spec: helper for the live window of a minimizing node
(§4.1, §9 of the spec) — the high bound lowered to the running best. -/
def lowerHigh [LinearOrder F] : Option F → F → Option F
  | none, b => some b
  | some h, b => some (min h b)

/-- Modelled from the spec: the repository declares `pub mod alpha_beta`
(`src/lib.rs`, line 16) but that module's source file is not part of the
available tree, so the bounded fail-soft alpha-beta search of §4.1/§9 of
the specification is reconstructed from its words.  Depth 0 evaluates the
action by the non-mutating lookahead; at positive depth the action is
executed on a private clone, a child with no actions terminates at the
pre-recursion fitness, and otherwise the children are folded left to
right: the first child unconditionally becomes the running best; before
each later sibling an acting node prunes once the running best is at least
the window's high bound and otherwise recurses under the live window (low
raised to the running best), folding with `max`; a non-acting node is the
exact dual — pruning on the low bound, lowering the high bound, folding
with `min`. -/
def alphaBeta [LinearOrder F] (g : Game S A P F) (p : P) (d : Nat) (a : A)
    (s : S) (low high : Option F) : F :=
  match d with
  | 0 => g.look_ahead s a p
  | e + 1 =>
    let fs := g.execute s a p
    let aa := g.actions fs.2 p
    match aa.2 with
    | [] => fs.1
    | a0 :: rest =>
      if aa.1 then
        rest.foldl
          (fun best a2 =>
            if high.any (fun h => decide (h ≤ best)) then best
            else max best (alphaBeta g p e a2 fs.2 (raiseLow low best) high))
          (alphaBeta g p e a0 fs.2 low high)
      else
        rest.foldl
          (fun best a2 =>
            if low.any (fun l => decide (best ≤ l)) then best
            else min best (alphaBeta g p e a2 fs.2 low (lowerHigh high best)))
          (alphaBeta g p e a0 fs.2 low high)

/-- Modelled from the spec: the root of the missing `alpha_beta` bot's
bounded search (§4.1-§4.2): an absence value when the root player is not
acting or has no legal action; otherwise the search runs at the given
depth with the unbounded root window, the first enumerated action seeds
the running best, and each later root action is searched under the live
window (low raised to the running best) and replaces the best exactly when
strictly better — the first-enumerated action wins ties.  Returns the
chosen action together with its achieved fitness. -/
def abSelect [LinearOrder F] (g : Game S A P F) (p : P) (s : S) (d : Nat) :
    Option (A × F) :=
  let aa := g.actions s p
  if !aa.1 then none else
  match aa.2 with
  | [] => none
  | a0 :: rest =>
    some (rest.foldl
      (fun best a =>
        let v := alphaBeta g p d a s (some best.2) none
        if v > best.2 then (a, v) else best)
      (a0, alphaBeta g p d a0 s none none))

/-- A search window is admissible when every present low bound lies
strictly below every present high bound. -/
def WFW [LinearOrder F] (low high : Option F) : Prop :=
  ∀ l ∈ low, ∀ h ∈ high, l < h

/-- Fail-soft correctness relation between a reported value `gv` and a true
value `v` relative to a window: a report at or below the low bound is an
upper bound of the truth, a report at or above the high bound is a lower
bound of the truth, and a report strictly inside the window is exact. -/
def ABApprox [LinearOrder F] (low high : Option F) (gv v : F) : Prop :=
  (∀ l ∈ low, gv ≤ l → v ≤ gv)
  ∧ (∀ h ∈ high, h ≤ gv → gv ≤ v)
  ∧ ((∀ l ∈ low, l < gv) → (∀ h ∈ high, gv < h) → gv = v)

theorem abApprox_refl [LinearOrder F] (low high : Option F) (x : F) :
    ABApprox low high x x :=
  ⟨fun _ _ _ => le_refl x, fun _ _ _ => le_refl x, fun _ _ => rfl⟩

/-- Pruning at an acting node is sound: when the running best already meets
the high bound, skipping a sibling keeps the fail-soft relation, whatever
the sibling's true value. -/
theorem abApprox_max_prune [LinearOrder F] {low high : Option F} {b V v2 : F}
    (hwf : WFW low high) (hpr : ∃ h ∈ high, h ≤ b)
    (hb : ABApprox low high b V) :
    ABApprox low high b (max V v2) := by
  obtain ⟨h0, hh0, hh0b⟩ := hpr
  refine ⟨?_, ?_, ?_⟩
  · intro l hl hble
    exact absurd (lt_of_lt_of_le (hwf l hl h0 hh0) hh0b) (not_lt.mpr hble)
  · intro h hh hhb
    exact le_trans (hb.2.1 h hh hhb) (le_max_left V v2)
  · intro _ hhigh
    exact absurd (hhigh h0 hh0) (not_lt.mpr hh0b)

/-- Pruning at a non-acting node is sound: when the running best already
meets the low bound, skipping a sibling keeps the fail-soft relation. -/
theorem abApprox_min_prune [LinearOrder F] {low high : Option F} {b V v2 : F}
    (hwf : WFW low high) (hpr : ∃ l ∈ low, b ≤ l)
    (hb : ABApprox low high b V) :
    ABApprox low high b (min V v2) := by
  obtain ⟨l0, hl0, hbl0⟩ := hpr
  refine ⟨?_, ?_, ?_⟩
  · intro l hl hble
    exact le_trans (min_le_left V v2) (hb.1 l hl hble)
  · intro h hh hhb
    exact absurd (hwf l0 hl0 h hh) (not_lt.mpr (le_trans hhb hbl0))
  · intro hlow _
    exact absurd (hlow l0 hl0) (not_lt.mpr hbl0)

/-- Folding one unpruned sibling at an acting (maximizing) node preserves
the fail-soft relation: the sibling is searched under the live window with
the low bound raised to the running best. -/
theorem abApprox_max_step [LinearOrder F] {low high : Option F} {b V g2 v2 : F}
    (hnp : ∀ h ∈ high, b < h)
    (hb : ABApprox low high b V)
    (hg : ABApprox (raiseLow low b) high g2 v2) :
    ABApprox low high (max b g2) (max V v2) := by
  obtain ⟨hb1, hb2, hb3⟩ := hb
  obtain ⟨hg1, hg2, hg3⟩ := hg
  refine ⟨?_, ?_, ?_⟩
  · intro l hl hle
    rw [Option.mem_def] at hl
    subst hl
    have hbl : b ≤ l := le_trans (le_max_left b g2) hle
    have hg2l : g2 ≤ l := le_trans (le_max_right b g2) hle
    have hVb : V ≤ b := hb1 l rfl hbl
    have hv2 : v2 ≤ g2 := hg1 (max l b) rfl (le_trans hg2l (le_max_left l b))
    exact max_le (le_trans hVb (le_max_left b g2))
      (le_trans hv2 (le_max_right b g2))
  · intro h hh hhle
    have hbh : b < h := hnp h hh
    have hmax : max b g2 = g2 := by
      rcases max_cases b g2 with ⟨he, _⟩ | ⟨he, _⟩
      · rw [he] at hhle
        exact absurd hhle (not_le.mpr hbh)
      · exact he
    rw [hmax] at hhle ⊢
    exact le_trans (hg2 h hh hhle) (le_max_right V v2)
  · intro hlow hhigh
    cases low with
    | none =>
      rcases le_or_lt g2 b with hc | hc
      · have hv2 : v2 ≤ g2 := hg1 b rfl hc
        have hbV : b = V :=
          hb3 (fun l hl => absurd hl (Option.not_mem_none l)) hnp
        rw [max_eq_left hc, ← hbV]
        exact (max_eq_left (le_trans hv2 hc)).symm
      · have hmax : max b g2 = g2 := max_eq_right (le_of_lt hc)
        have hg2v : g2 = v2 := by
          refine hg3 (fun l' hl' => ?_) (fun h hh => ?_)
          · simp only [raiseLow, Option.mem_some_iff] at hl'
            subst hl'
            exact hc
          · have := hhigh h hh
            rwa [hmax] at this
        have hbV : b = V :=
          hb3 (fun l hl => absurd hl (Option.not_mem_none l)) hnp
        rw [hmax, ← hg2v, ← hbV]
        exact (max_eq_right (le_of_lt hc)).symm
    | some l =>
      have hlg : l < max b g2 := hlow l rfl
      rcases le_or_lt g2 (max l b) with hc | hc
      · have hv2 : v2 ≤ g2 := by
          refine hg1 (max l b) ?_ hc
          simp [raiseLow]
        rcases le_total l b with hlb | hbl
        · have hg2b : g2 ≤ b := by rwa [max_eq_right hlb] at hc
          have hmax : max b g2 = b := max_eq_left hg2b
          have hlb2 : l < b := by rwa [hmax] at hlg
          have hbV : b = V := by
            refine hb3 (fun l' hl' => ?_) hnp
            rw [Option.mem_some_iff] at hl'
            subst hl'
            exact hlb2
          rw [hmax, ← hbV]
          exact (max_eq_left (le_trans hv2 hg2b)).symm
        · have hg2l : g2 ≤ l := by rwa [max_eq_left hbl] at hc
          exact absurd hlg (not_lt.mpr (max_le hbl hg2l))
      · have hbg2 : b < g2 := lt_of_le_of_lt (le_max_right l b) hc
        have hmax : max b g2 = g2 := max_eq_right (le_of_lt hbg2)
        have hg2v : g2 = v2 := by
          refine hg3 (fun l' hl' => ?_) (fun h hh => ?_)
          · simp only [raiseLow, Option.mem_some_iff] at hl'
            subst hl'
            exact hc
          · have := hhigh h hh
            rwa [hmax] at this
        have hVg2 : V ≤ g2 := by
          rcases lt_or_le l b with hlb | hbl
          · have hbV : b = V := by
              refine hb3 (fun l' hl' => ?_) hnp
              rw [Option.mem_some_iff] at hl'
              subst hl'
              exact hlb
            rw [← hbV]
            exact le_of_lt hbg2
          · exact le_trans (hb1 l rfl hbl) (le_of_lt hbg2)
        rw [hmax, ← hg2v]
        exact (max_eq_right hVg2).symm

/-- Folding one unpruned sibling at a non-acting (minimizing) node preserves
the fail-soft relation: the sibling is searched under the live window with
the high bound lowered to the running best. -/
theorem abApprox_min_step [LinearOrder F] {low high : Option F} {b V g2 v2 : F}
    (hnp : ∀ l ∈ low, l < b)
    (hb : ABApprox low high b V)
    (hg : ABApprox low (lowerHigh high b) g2 v2) :
    ABApprox low high (min b g2) (min V v2) := by
  obtain ⟨hb1, hb2, hb3⟩ := hb
  obtain ⟨hg1, hg2, hg3⟩ := hg
  refine ⟨?_, ?_, ?_⟩
  · intro l hl hle
    have hlb : l < b := hnp l hl
    have hmin : min b g2 = g2 := by
      rcases min_cases b g2 with ⟨he, _⟩ | ⟨he, _⟩
      · rw [he] at hle
        exact absurd hle (not_le.mpr hlb)
      · exact he
    rw [hmin] at hle ⊢
    exact le_trans (min_le_right V v2) (hg1 l hl hle)
  · intro h hh hhb
    rw [Option.mem_def] at hh
    subst hh
    have hbV : b ≤ V := hb2 h rfl (le_trans hhb (min_le_left b g2))
    have hg2v : g2 ≤ v2 := by
      refine hg2 (min h b) rfl ?_
      exact le_trans (min_le_left h b) (le_trans hhb (min_le_right b g2))
    exact le_min (le_trans (min_le_left b g2) hbV)
      (le_trans (min_le_right b g2) hg2v)
  · intro hlow hhigh
    cases high with
    | none =>
      rcases le_or_lt b g2 with hc | hc
      · have hg2v : g2 ≤ v2 := hg2 b rfl hc
        have hbV : b = V :=
          hb3 hnp (fun h hh => absurd hh (Option.not_mem_none h))
        rw [min_eq_left hc, ← hbV]
        exact (min_eq_left (le_trans hc hg2v)).symm
      · have hmin : min b g2 = g2 := min_eq_right (le_of_lt hc)
        have hg2v : g2 = v2 := by
          refine hg3 (fun l hl => ?_) (fun h' hh' => ?_)
          · have := hlow l hl
            rwa [hmin] at this
          · simp only [lowerHigh, Option.mem_some_iff] at hh'
            subst hh'
            exact hc
        have hbV : b = V :=
          hb3 hnp (fun h hh => absurd hh (Option.not_mem_none h))
        rw [hmin, ← hg2v, ← hbV]
        exact (min_eq_right (le_of_lt hc)).symm
    | some h =>
      have hmh : min b g2 < h := hhigh h rfl
      rcases le_or_lt (min h b) g2 with hc | hc
      · have hg2v : g2 ≤ v2 := by
          refine hg2 (min h b) ?_ hc
          simp [lowerHigh]
        rcases le_total b h with hbh | hhb
        · have hbg2 : b ≤ g2 := by rwa [min_eq_right hbh] at hc
          have hmin : min b g2 = b := min_eq_left hbg2
          have hbh2 : b < h := by rwa [hmin] at hmh
          have hbV : b = V := by
            refine hb3 hnp (fun h' hh' => ?_)
            rw [Option.mem_some_iff] at hh'
            subst hh'
            exact hbh2
          rw [hmin, ← hbV]
          exact (min_eq_left (le_trans hbg2 hg2v)).symm
        · have hhg2 : h ≤ g2 := by rwa [min_eq_left hhb] at hc
          exact absurd hmh (not_lt.mpr (le_min hhb hhg2))
      · have hg2b : g2 < b := lt_of_lt_of_le hc (min_le_right h b)
        have hmin : min b g2 = g2 := min_eq_right (le_of_lt hg2b)
        have hg2v : g2 = v2 := by
          refine hg3 (fun l hl => ?_) (fun h' hh' => ?_)
          · have := hlow l hl
            rwa [hmin] at this
          · simp only [lowerHigh, Option.mem_some_iff] at hh'
            subst hh'
            exact hc
        have hg2V : g2 ≤ V := by
          rcases lt_or_le b h with hbh | hhb
          · have hbV : b = V := by
              refine hb3 hnp (fun h' hh' => ?_)
              rw [Option.mem_some_iff] at hh'
              subst hh'
              exact hbh
            rw [← hbV]
            exact le_of_lt hg2b
          · exact le_trans (le_of_lt hg2b) (hb2 h rfl hhb)
        rw [hmin, ← hg2v]
        exact (min_eq_right hg2V).symm

/-- The sibling fold of an acting node keeps the fail-soft relation between
the alpha-beta running best and the true (`minimax`) running maximum. -/
theorem abFold_max_approx [LinearOrder F] (g : Game S A P F) (p : P) (e : Nat)
    (s2 : S)
    (IH : ∀ (a : A) (s : S) (low high : Option F), WFW low high →
      ABApprox low high (alphaBeta g p e a s low high) (minimax g p e a s)) :
    ∀ (rest : List A) (low high : Option F) (b V : F),
      WFW low high → ABApprox low high b V →
      ABApprox low high
        (rest.foldl
          (fun best a2 =>
            if high.any (fun h => decide (h ≤ best)) then best
            else max best (alphaBeta g p e a2 s2 (raiseLow low best) high))
          b)
        (rest.foldl (fun acc a2 => max acc (minimax g p e a2 s2)) V) := by
  intro rest
  induction rest with
  | nil =>
    intro low high b V _ hb
    exact hb
  | cons a2 rest ih =>
    intro low high b V hwf hb
    simp only [List.foldl_cons]
    by_cases hpr : high.any (fun h => decide (h ≤ b)) = true
    · rw [if_pos hpr]
      have hex : ∃ h ∈ high, h ≤ b := by
        cases high with
        | none => simp [Option.any] at hpr
        | some h0 =>
          refine ⟨h0, rfl, ?_⟩
          simpa [Option.any] using hpr
      exact ih low high b _ hwf (abApprox_max_prune hwf hex hb)
    · rw [if_neg hpr]
      have hnp : ∀ h ∈ high, b < h := by
        intro h hh
        cases high with
        | none => exact absurd hh (Option.not_mem_none h)
        | some h0 =>
          rw [Option.mem_some_iff] at hh
          subst hh
          simp only [Option.any, decide_eq_true_eq] at hpr
          exact not_le.mp hpr
      have hwf2 : WFW (raiseLow low b) high := by
        intro l' hl' h hh
        cases low with
        | none =>
          simp only [raiseLow, Option.mem_some_iff] at hl'
          subst hl'
          exact hnp h hh
        | some l0 =>
          simp only [raiseLow, Option.mem_some_iff] at hl'
          subst hl'
          exact max_lt (hwf l0 rfl h hh) (hnp h hh)
      exact ih low high _ _ hwf
        (abApprox_max_step hnp hb (IH a2 s2 (raiseLow low b) high hwf2))

/-- The sibling fold of a non-acting node keeps the fail-soft relation
between the alpha-beta running best and the true running minimum. -/
theorem abFold_min_approx [LinearOrder F] (g : Game S A P F) (p : P) (e : Nat)
    (s2 : S)
    (IH : ∀ (a : A) (s : S) (low high : Option F), WFW low high →
      ABApprox low high (alphaBeta g p e a s low high) (minimax g p e a s)) :
    ∀ (rest : List A) (low high : Option F) (b V : F),
      WFW low high → ABApprox low high b V →
      ABApprox low high
        (rest.foldl
          (fun best a2 =>
            if low.any (fun l => decide (best ≤ l)) then best
            else min best (alphaBeta g p e a2 s2 low (lowerHigh high best)))
          b)
        (rest.foldl (fun acc a2 => min acc (minimax g p e a2 s2)) V) := by
  intro rest
  induction rest with
  | nil =>
    intro low high b V _ hb
    exact hb
  | cons a2 rest ih =>
    intro low high b V hwf hb
    simp only [List.foldl_cons]
    by_cases hpr : low.any (fun l => decide (b ≤ l)) = true
    · rw [if_pos hpr]
      have hex : ∃ l ∈ low, b ≤ l := by
        cases low with
        | none => simp [Option.any] at hpr
        | some l0 =>
          refine ⟨l0, rfl, ?_⟩
          simpa [Option.any] using hpr
      exact ih low high b _ hwf (abApprox_min_prune hwf hex hb)
    · rw [if_neg hpr]
      have hnp : ∀ l ∈ low, l < b := by
        intro l hl
        cases low with
        | none => exact absurd hl (Option.not_mem_none l)
        | some l0 =>
          rw [Option.mem_some_iff] at hl
          subst hl
          simp only [Option.any, decide_eq_true_eq] at hpr
          exact not_le.mp hpr
      have hwf2 : WFW low (lowerHigh high b) := by
        intro l hl h' hh'
        cases high with
        | none =>
          simp only [lowerHigh, Option.mem_some_iff] at hh'
          subst hh'
          exact hnp l hl
        | some h0 =>
          simp only [lowerHigh, Option.mem_some_iff] at hh'
          subst hh'
          exact lt_min (hwf l hl h0 rfl) (hnp l hl)
      exact ih low high _ _ hwf
        (abApprox_min_step hnp hb (IH a2 s2 low (lowerHigh high b) hwf2))

/-- Fail-soft correctness of the spec-modelled bounded alpha-beta search:
under any admissible window its report for an action is related to the
brute-force `minimax` value of that action by `ABApprox` — in particular a
report strictly inside the window is exact. -/
theorem alphaBeta_approx [LinearOrder F] (g : Game S A P F) (p : P) :
    ∀ (d : Nat) (a : A) (s : S) (low high : Option F), WFW low high →
      ABApprox low high (alphaBeta g p d a s low high) (minimax g p d a s) := by
  intro d
  induction d with
  | zero =>
    intro a s low high _
    exact abApprox_refl low high _
  | succ e ih =>
    intro a s low high hwf
    simp only [alphaBeta, minimax]
    cases h2 : (g.actions (g.execute s a p).2 p).2 with
    | nil =>
      simp only [List.map_nil, List.max?_nil, List.min?_nil, Option.getD_none,
        ite_self]
      exact abApprox_refl low high _
    | cons a0 rest =>
      cases h1 : (g.actions (g.execute s a p).2 p).1
      · simp only [h1, Bool.false_eq_true, if_false, List.map_cons,
          List.min?_cons', Option.getD_some, List.foldl_map]
        exact abFold_min_approx g p e (g.execute s a p).2
          (fun a3 s3 lo hi hw => ih a3 s3 lo hi hw) rest low high _ _ hwf
          (ih a0 (g.execute s a p).2 low high hwf)
      · simp only [h1, if_true, List.map_cons, List.max?_cons',
          Option.getD_some, List.foldl_map]
        exact abFold_max_approx g p e (g.execute s a p).2
          (fun a3 s3 lo hi hw => ih a3 s3 lo hi hw) rest low high _ _ hwf
          (ih a0 (g.execute s a p).2 low high hwf)

/-- Under the unbounded window the spec-modelled alpha-beta search computes
exactly the brute-force minimax value. -/
theorem alphaBeta_unbounded_eq [LinearOrder F] (g : Game S A P F) (p : P)
    (d : Nat) (a : A) (s : S) :
    alphaBeta g p d a s none none = minimax g p d a s := by
  have hwf : WFW (none : Option F) (none : Option F) :=
    fun l hl => absurd hl (Option.not_mem_none l)
  exact (alphaBeta_approx g p d a s none none hwf).2.2
    (fun l hl => absurd hl (Option.not_mem_none l))
    (fun h hh => absurd hh (Option.not_mem_none h))

/-- The root folds of the spec-modelled alpha-beta `select` and of the
brute-force `select` proceed in lockstep: a root child searched under the
live window `(some best, none)` reports a value strictly above the running
best exactly when its true value is (and then the report is exact), so both
folds take the same branch with the same written pair at every step. -/
theorem abRootFold_eq [LinearOrder F] (g : Game S A P F) (p : P) (d : Nat)
    (s : S) :
    ∀ (rest : List A) (c : A) (b : F),
      rest.foldl
        (fun best a =>
          if alphaBeta g p d a s (some best.2) none > best.2
          then (a, alphaBeta g p d a s (some best.2) none) else best)
        (c, b)
      = rest.foldl
        (fun best a =>
          if minimax g p d a s > best.2 then (a, minimax g p d a s) else best)
        (c, b) := by
  intro rest
  induction rest with
  | nil =>
    intro c b
    rfl
  | cons a rest ih =>
    intro c b
    simp only [List.foldl_cons]
    have hwf : WFW (some b) (none : Option F) :=
      fun l hl h hh => absurd hh (Option.not_mem_none h)
    have happ := alphaBeta_approx g p d a s (some b) none hwf
    have hstep :
        (if alphaBeta g p d a s (some b) none > b
         then (a, alphaBeta g p d a s (some b) none) else (c, b))
        = (if minimax g p d a s > b then (a, minimax g p d a s) else (c, b)) := by
      by_cases hgt : alphaBeta g p d a s (some b) none > b
      · have hexact : alphaBeta g p d a s (some b) none = minimax g p d a s := by
          refine happ.2.2 (fun l hl => ?_)
            (fun h hh => absurd hh (Option.not_mem_none h))
          rw [Option.mem_some_iff] at hl
          subst hl
          exact hgt
        rw [← hexact]
      · have hle : alphaBeta g p d a s (some b) none ≤ b := not_lt.mp hgt
        have hmm : minimax g p d a s ≤ b := le_trans (happ.1 b rfl hle) hle
        rw [if_neg hgt, if_neg (not_lt.mpr hmm)]
    rw [hstep]
    exact ih _ _

/-- C2: the spec-modelled bounded alpha-beta search at depth `d` under the
unbounded root window returns exactly the pair computed by the brute-force
baseline: the same absence cases, and for an acting root player the
identical chosen action together with the identical achieved fitness — the
baseline's value at that depth.  In particular the fitness always equals
the baseline's, and the actions cannot differ even on ties. -/
theorem abSelect_eq_selectBest [LinearOrder F] (g : Game S A P F) (p : P)
    (s : S) (d : Nat) : abSelect g p s d = selectBest g p s d := by
  unfold abSelect selectBest
  cases h1 : (g.actions s p).1
  · simp [h1]
  · cases h2 : (g.actions s p).2 with
    | nil => simp [h1, h2]
    | cons a0 rest =>
      simp only [h1, h2, Bool.not_true, Bool.false_eq_true, if_false]
      rw [alphaBeta_unbounded_eq g p d a0 s]
      exact congrArg some (abRootFold_eq g p d s rest a0 (minimax g p d a0 s))

/-- C10: neither the recursive search nor `select` mutates the caller's
state: in the state-threaded model of the source's borrows (every `execute`
happens on a clone owned by its recursion frame), both calls return the
input state unchanged while computing the same result as the pure
embedding. -/
theorem brute_frame_effect [LinearOrder F] (g : Game S A P F) (p : P) :
    (∀ (d : Nat) (a : A) (s : S), minimaxST g p d a s = (minimax g p d a s, s))
  ∧ (∀ (s : S) (d : Nat), selectST g p s d = (select g p s d, s)) :=
  ⟨minimaxST_eq g p, fun s d => selectST_eq g p s d⟩

end Rubot
